import Mathlib

/-!
Verification of the Bernoulli naive Bayes estimator used by the
`Chapter03/NaiveBayes` notebook.  The notebook itself only preprocesses the
Titanic table and invokes a library-provided estimator
(`BernoulliNB(alpha=0, fit_prior=False, class_prior=None)`), so the estimator
(fit / predict, error taxonomy) is modelled from the specification, while the
notebook's own preprocessing cell is embedded directly from its code.
-/

namespace NB

/-- Class labels (the notebook's `Survived` column holds integers). -/
abbrev Label := ℤ

/-- One row of a feature matrix: an ordered sequence of feature values. -/
abbrev Row := List ℚ

/-- A feature matrix: an ordered sequence of rows. -/
abbrev FeatureMatrix := List Row

/-- Modelled from the spec: the Trained Model owns class prior probabilities
and per-class-per-feature probabilities, plus the column count `K` fixed at
fit time and the list of classes in first-seen order (the fixed deterministic
class ordering used to break ties). -/
structure TrainedModel where
  K : ℕ
  classes : List Label
  prior : Label → ℚ
  condProb : Label → ℕ → ℚ

/-- `N_y`: the number of training labels equal to `y`. -/
def countLabel (ys : List Label) (y : Label) : ℕ :=
  ys.count y

/-- `count_{k,y}`: the number of training rows with label `y` whose feature
`k` equals `1`. -/
def countFeature (X : FeatureMatrix) (ys : List Label) (y : Label) (k : ℕ) : ℕ :=
  ((X.zip ys).filter (fun p => decide (p.2 = y ∧ p.1.getD k 0 = 1))).length

/-- The distinct labels of `ys` in first-seen order. -/
def firstSeen : List Label → List Label
  | [] => []
  | y :: ys => y :: (firstSeen ys).filter (fun z => decide (z ≠ y))

/-- Modelled from the spec: the smoothed Bernoulli estimate
`(count + α) / (N_y + 2α)`. -/
def smoothedProb (alpha : ℚ) (c Ny : ℕ) : ℚ :=
  ((c : ℚ) + alpha) / ((Ny : ℚ) + 2 * alpha)

/-- Modelled from the spec: the model populated by a successful fit.  Priors
are the empirical class frequencies when no fixed class-prior mapping is
supplied, and the supplied mapping otherwise. -/
def trainModel (alpha : ℚ) (classPrior : Option (Label → ℚ))
    (X : FeatureMatrix) (ys : List Label) : TrainedModel where
  K := (X.headD []).length
  classes := firstSeen ys
  prior := fun y =>
    match classPrior with
    | some f => f y
    | none => (countLabel ys y : ℚ) / (ys.length : ℚ)
  condProb := fun y k => smoothedProb alpha (countFeature X ys y k) (countLabel ys y)

/-- Modelled from the spec: fit's error taxonomy. -/
inductive FitError
  | invalidInput
deriving DecidableEq

/-- Modelled from the spec: predict's error taxonomy. -/
inductive PredictError
  | dimensionMismatch
  | untrainedModel
deriving DecidableEq

/-- Modelled from the spec: the estimator object.  Created with an empty
(`none`) model, populated once by `fit`. -/
structure BernoulliNB where
  alpha : ℚ
  classPrior : Option (Label → ℚ)
  model : Option TrainedModel

/-- A freshly constructed, unfit estimator (its model slot is empty). -/
def mkBernoulliNB (alpha : ℚ) (classPrior : Option (Label → ℚ)) : BernoulliNB :=
  ⟨alpha, classPrior, none⟩

/-- Modelled from the spec: the training-input check performed by fit
(row/label count match, nonempty data, all feature values binary). -/
def validTraining (X : FeatureMatrix) (ys : List Label) : Bool :=
  decide (X.length = ys.length) && !X.isEmpty &&
    X.all (fun r => r.all (fun v => decide (v = 0) || decide (v = 1)))

/-- The complement of `validTraining`, phrased as the spec phrases the
`InvalidInputError` conditions. -/
def invalidTraining (X : FeatureMatrix) (ys : List Label) : Prop :=
  X.length ≠ ys.length ∨ (∃ r ∈ X, ∃ v ∈ r, v ≠ 0 ∧ v ≠ 1) ∨ X = []

/-- Modelled from the spec: `fit(features, labels) -> Model | InvalidInputError`. -/
def fit (e : BernoulliNB) (X : FeatureMatrix) (ys : List Label) :
    Except FitError BernoulliNB :=
  if validTraining X ys then
    .ok { e with model := some (trainModel e.alpha e.classPrior X ys) }
  else
    .error .invalidInput

/-- The per-feature likelihood factor `P(X_k = x | Y = y)` of a Bernoulli
feature with success probability `p`. -/
def factor (p x : ℚ) : ℚ :=
  if x = 1 then p else 1 - p

/-- Modelled from the spec: the (pre-logarithm) score
`P(Y=y) · Π_k P(X_k = x_k | Y = y)` of a row under class `y`. -/
def prodScore (m : TrainedModel) (row : Row) (y : Label) : ℚ :=
  m.prior y * ((List.range m.K).map (fun k => factor (m.condProb y k) (row.getD k 0))).prod

/-- Combine the current element with the best of the rest: the later best
wins only when strictly greater, so ties are broken towards the earlier
element. -/
def argmaxStep {α β : Type*} [LinearOrder β] (f : α → β) (a : α) : Option α → α
  | none => a
  | some b => if f a < f b then b else a

/-- First maximiser of `f` over a list. -/
def argmaxBy {α β : Type*} [LinearOrder β] (f : α → β) : List α → Option α
  | [] => none
  | a :: l => some (argmaxStep f a (argmaxBy f l))

/-- The predicted label of one row: the first class (in first-seen order)
maximising the score. -/
def predictRow (m : TrainedModel) (row : Row) : Label :=
  (argmaxBy (prodScore m row) m.classes).getD 0

/-- Modelled from the spec:
`predict(model, features) -> labels | DimensionMismatchError | UntrainedModelError`. -/
def predict (e : BernoulliNB) (X : FeatureMatrix) :
    Except PredictError (List Label) :=
  match e.model with
  | none => .error .untrainedModel
  | some m =>
    if X.all (fun r => decide (r.length = m.K)) then
      .ok (X.map (fun r => predictRow m r))
    else
      .error .dimensionMismatch

/-- Modelled from the spec: a predict call as a state transformer on the
estimator — it reads the model and performs no mutation. -/
def predictCall (e : BernoulliNB) (X : FeatureMatrix) :
    Except PredictError (List Label) × BernoulliNB :=
  (predict e X, e)

/-- The smoothing parameter of the repository's single fit invocation:
`BernoulliNB(alpha=0, fit_prior=False, class_prior=None)`. -/
def repoAlpha : ℚ := 0

/-- The estimator constructed by the notebook (`alpha=0`, no class prior). -/
def repoEstimator : BernoulliNB := mkBernoulliNB repoAlpha none

/-- Extended-real logarithm of a rational: `⊥` at and below zero, so that a
zero probability gives log-score `-∞` as the spec describes. -/
noncomputable def elog (q : ℚ) : EReal :=
  if q ≤ 0 then (⊥ : EReal) else ((Real.log (q : ℝ) : ℝ) : EReal)

/-- The spec's per-feature log-likelihood term
`x_k · log P(X_k=1|Y=y) + (1-x_k) · log(1 - P(X_k=1|Y=y))`. -/
noncomputable def featureTerm (x p : ℚ) : EReal :=
  ((x : ℝ) : EReal) * elog p + (((1 - x : ℚ) : ℝ) : EReal) * elog (1 - p)

/-- The spec's per-row log-score
`log P(Y=y) + Σ_k [x_k · log P(X_k=1|Y=y) + (1-x_k) · log(1-P(X_k=1|Y=y))]`. -/
noncomputable def logScore (m : TrainedModel) (row : Row) (y : Label) : EReal :=
  elog (m.prior y) +
    ((List.range m.K).map (fun k => featureTerm (row.getD k 0) (m.condProb y k))).sum

/-- `lab` is the label at the first position `j` of the model's class list
attaining the maximal log-score for `row`: every class scores no higher, and
every strictly earlier class scores strictly lower (the spec's argmax with
ties broken by the fixed class ordering). -/
def FirstArgmaxAt (m : TrainedModel) (row : Row) (lab : Label) : Prop :=
  ∃ j, ∃ hj : j < m.classes.length,
    lab = m.classes.get ⟨j, hj⟩ ∧
      (∀ y ∈ m.classes, logScore m row y ≤ logScore m row lab) ∧
      ∀ j' (hj' : j' < j),
        logScore m row (m.classes.get ⟨j', Nat.lt_trans hj' hj⟩) <
          logScore m row (m.classes.get ⟨j, hj⟩)

/-- A small concrete fitted estimator used by witnesses. -/
def demoFitted : BernoulliNB :=
  ⟨0, none, some (trainModel 0 none [[1]] [0])⟩

/-- A concrete estimator fitted with smoothing `α = 1`, used by witnesses. -/
def demoSmoothed : BernoulliNB :=
  ⟨1, none, some (trainModel 1 none [[1], [0]] [0, 1])⟩

/-! ### Notebook preprocessing (embedded from the source) -/

/-- The two values of the raw `Sex` column that the notebook's
`replace({'Sex': {'male': 0, 'female': 1}})` maps. -/
inductive RawSex
  | male
  | female
deriving DecidableEq

/-- A row of `titanic.csv` before the notebook's preprocessing cell. -/
structure RawPassenger where
  survived : Label
  pclass : ℚ
  name : String
  sex : RawSex
  age : ℚ
  siblingsSpousesAboard : ℚ
  parentsChildrenAboard : ℚ
  fare : ℚ

/-- A row after `assign(Age_cat=..., Fare_cat=...)`, `replace` on `Sex`, and
`drop(['Age', 'Fare', 'Name'])`. -/
structure ProcessedPassenger where
  survived : Label
  pclass : ℚ
  sex : ℚ
  siblingsSpousesAboard : ℚ
  parentsChildrenAboard : ℚ
  age_cat : Bool
  fare_cat : Bool

/-- The notebook's `replace({'Sex': {'male': 0, 'female': 1}})`. -/
def recodeSex : RawSex → ℚ
  | .male => 0
  | .female => 1

/-- The notebook's preprocessing cell:
`titanic.assign(Age_cat=(titanic.Age <= 2), Fare_cat=(titanic.Fare <= 23.35))`,
then the `Sex` recode, then dropping `Age`, `Fare`, `Name`. -/
def preprocess (r : RawPassenger) : ProcessedPassenger where
  survived := r.survived
  pclass := r.pclass
  sex := recodeSex r.sex
  siblingsSpousesAboard := r.siblingsSpousesAboard
  parentsChildrenAboard := r.parentsChildrenAboard
  age_cat := decide (r.age ≤ 2)
  fare_cat := decide (r.fare ≤ 23.35)

def boolToRat (b : Bool) : ℚ := if b then 1 else 0

/-- The feature row handed to `bnb.fit` after `drop("Survived", axis=1)`:
columns `Pclass`, `Sex`, `Siblings/Spouses Aboard`, `Parents/Children
Aboard`, `Age_cat`, `Fare_cat` in dataframe order. -/
def featureRow (p : ProcessedPassenger) : Row :=
  [p.pclass, p.sex, p.siblingsSpousesAboard, p.parentsChildrenAboard,
    boolToRat p.age_cat, boolToRat p.fare_cat]

/-! ### Theorems -/

/-- The model held by the estimator a successful fit returns is
`trainModel` of the inputs. -/
lemma fit_model_eq {e : BernoulliNB} {X : FeatureMatrix} {ys : List Label}
    {e' : BernoulliNB} {m : TrainedModel}
    (hfit : fit e X ys = .ok e') (hm : e'.model = some m) :
    m = trainModel e.alpha e.classPrior X ys := by
  unfold fit at hfit
  split at hfit
  · have he' : e' = { e with model := some (trainModel e.alpha e.classPrior X ys) } :=
      (Except.ok.injEq _ _).mp hfit.symm
    subst he'
    simp only at hm
    exact (Option.some.injEq _ _).mp hm.symm
  · exact absurd hfit (by simp)

/-- A successful fit implies its input check held. -/
lemma fit_valid {e : BernoulliNB} {X : FeatureMatrix} {ys : List Label}
    {e' : BernoulliNB} (hfit : fit e X ys = .ok e') :
    validTraining X ys = true := by
  unfold fit at hfit
  split at hfit
  · assumption
  · exact absurd hfit (by simp)

/-- C1: the probability stored by fit for class `y` and feature `k` is
`(count_{k,y} + α) / (N_y + 2α)`, and with `α = 0` and `count_{k,y} = 0` it
is exactly `0`. -/
theorem fit_condProb_formula (e : BernoulliNB) (X : FeatureMatrix)
    (ys : List Label) (e' : BernoulliNB) (m : TrainedModel)
    (hfit : fit e X ys = .ok e') (hm : e'.model = some m)
    (y : Label) (k : ℕ) :
    m.condProb y k =
        ((countFeature X ys y k : ℚ) + e.alpha) /
          ((countLabel ys y : ℚ) + 2 * e.alpha) ∧
      (e.alpha = 0 → countFeature X ys y k = 0 → m.condProb y k = 0) := by
  have hmm := fit_model_eq hfit hm
  subst hmm
  refine ⟨rfl, ?_⟩
  intro hα hc
  simp [trainModel, smoothedProb, hα, hc]

/-- C1 witness. -/
theorem fit_condProb_formula_witness :
    (trainModel 0 none [[1]] [0]).condProb 0 0 =
        ((countFeature [[1]] [0] 0 0 : ℚ) + 0) / ((countLabel [0] 0 : ℚ) + 2 * 0) ∧
      ((0 : ℚ) = 0 → countFeature [[1]] [0] 0 0 = 0 →
        (trainModel 0 none [[1]] [0]).condProb 0 0 = 0) :=
  fit_condProb_formula (mkBernoulliNB 0 none) [[1]] [0]
    { mkBernoulliNB 0 none with model := some (trainModel 0 none [[1]] [0]) }
    (trainModel 0 none [[1]] [0]) rfl rfl 0 0

/-- C3: fit returns `InvalidInputError` exactly when row/label counts
mismatch, some feature value is not 0 or 1, or the input is empty; otherwise
it returns the estimator with its model populated. -/
theorem fit_invalid_iff (e : BernoulliNB) (X : FeatureMatrix) (ys : List Label) :
    (fit e X ys = .error .invalidInput ↔ invalidTraining X ys) ∧
      (¬ invalidTraining X ys →
        fit e X ys = .ok { e with model := some (trainModel e.alpha e.classPrior X ys) }) := by
  have hval : validTraining X ys = true ↔ ¬ invalidTraining X ys := by
    simp only [validTraining, invalidTraining, Bool.and_eq_true, decide_eq_true_eq,
      Bool.not_eq_true', List.isEmpty_eq_false, List.all_eq_true,
      Bool.or_eq_true, not_or]
    constructor
    · rintro ⟨⟨hlen, hne⟩, hbin⟩
      push_neg
      refine ⟨hlen, ?_, hne⟩
      intro r hr v hv
      rcases hbin r hr v hv with h | h
      · intro h0; exact absurd h h0
      · exact fun _ => h
    · rintro ⟨hlen, hbin, hne⟩
      push_neg at hbin
      refine ⟨⟨not_ne_iff.mp hlen, hne⟩, ?_⟩
      intro r hr v hv
      by_cases h0 : v = 0
      · exact Or.inl h0
      · exact Or.inr (hbin r hr v hv h0)
  by_cases hc : validTraining X ys = true
  · refine ⟨⟨fun herr => ?_, fun hinv => absurd hinv (hval.mp hc)⟩, fun _ => ?_⟩
    · unfold fit at herr
      rw [if_pos hc] at herr
      exact absurd herr (by simp)
    · unfold fit
      rw [if_pos hc]
  · have hinv : invalidTraining X ys := by
      by_contra hni
      exact hc (hval.mpr hni)
    refine ⟨⟨fun _ => hinv, fun _ => ?_⟩, fun hni => absurd hinv hni⟩
    unfold fit
    rw [if_neg hc]

/-- C5: the repository's fit invocation uses `α = 0`, and under it any
class/feature pair with `count_{k,y} = 0` is stored with probability exactly
`0`. -/
theorem repoFit_zero_count_zero_prob (X : FeatureMatrix) (ys : List Label)
    (e' : BernoulliNB) (m : TrainedModel) (y : Label) (k : ℕ)
    (hfit : fit repoEstimator X ys = .ok e') (hm : e'.model = some m)
    (hc : countFeature X ys y k = 0) :
    repoAlpha = 0 ∧ m.condProb y k = 0 := by
  refine ⟨rfl, ?_⟩
  have hmm := fit_model_eq hfit hm
  subst hmm
  simp [trainModel, smoothedProb, repoEstimator, mkBernoulliNB, repoAlpha, hc]

/-- C5 witness. -/
theorem repoFit_zero_count_zero_prob_witness :
    repoAlpha = 0 ∧ (trainModel 0 none [[0]] [0]).condProb 0 0 = 0 :=
  repoFit_zero_count_zero_prob [[0]] [0]
    { repoEstimator with model := some (trainModel 0 none [[0]] [0]) }
    (trainModel 0 none [[0]] [0]) 0 0 rfl rfl rfl

/-- C4: predict returns `DimensionMismatchError` on a trained estimator when
the input column count differs from the training column count `K`, and
`UntrainedModelError` on any input given a freshly constructed estimator. -/
theorem predict_error_cases (e : BernoulliNB) (m : TrainedModel)
    (X : FeatureMatrix) (c : ℕ)
    (hm : e.model = some m) (hne : X ≠ []) (hc : ∀ r ∈ X, r.length = c)
    (hck : c ≠ m.K) :
    predict e X = .error .dimensionMismatch ∧
      ∀ (a : ℚ) (cp : Option (Label → ℚ)) (Y : FeatureMatrix),
        predict (mkBernoulliNB a cp) Y = .error .untrainedModel := by
  constructor
  · unfold predict
    rw [hm]
    have hall : ¬ (X.all (fun r => decide (r.length = m.K)) = true) := by
      intro hall'
      rw [List.all_eq_true] at hall'
      obtain ⟨r0, hr0⟩ := List.exists_mem_of_ne_nil X hne
      have hlen := hall' r0 hr0
      rw [decide_eq_true_eq] at hlen
      exact hck ((hc r0 hr0).symm.trans hlen)
    show (if (X.all fun r => decide (r.length = m.K)) = true then
          Except.ok (X.map fun r => predictRow m r)
        else Except.error PredictError.dimensionMismatch)
      = Except.error PredictError.dimensionMismatch
    rw [if_neg hall]
  · intro a cp Y
    rfl

/-- C4 witness. -/
theorem predict_error_cases_witness :
    ([[(1 : ℚ), 1]] : FeatureMatrix) ≠ [] ∧
      (∀ r ∈ ([[(1 : ℚ), 1]] : FeatureMatrix), r.length = 2) ∧
      2 ≠ (trainModel 0 none [[1]] [0]).K ∧
      (predict demoFitted [[1, 1]] = .error .dimensionMismatch ∧
        ∀ (a : ℚ) (cp : Option (Label → ℚ)) (Y : FeatureMatrix),
          predict (mkBernoulliNB a cp) Y = .error .untrainedModel) :=
  ⟨by decide, by decide, by decide,
    predict_error_cases demoFitted
      (trainModel 0 none [[1]] [0]) [[1, 1]] 2 rfl (by decide) (by decide) (by decide)⟩

/-- Membership in the first-seen class list is membership in the labels. -/
lemma mem_firstSeen {y : Label} {ys : List Label} :
    y ∈ firstSeen ys ↔ y ∈ ys := by
  induction ys with
  | nil => simp [firstSeen]
  | cons a l ih =>
    by_cases hy : y = a
    · subst hy
      simp [firstSeen]
    · simp [firstSeen, List.mem_filter, hy, ih]

/-- The first-seen class list has no duplicates. -/
lemma firstSeen_nodup : ∀ ys : List Label, (firstSeen ys).Nodup
  | [] => by simp [firstSeen]
  | y :: ys => by
    simp only [firstSeen, List.nodup_cons]
    refine ⟨fun hmem => ?_, (firstSeen_nodup ys).filter _⟩
    have := (List.mem_filter.mp hmem).2
    simp at this

/-- In each class, the count of rows with feature `k` set is at most the
class count. -/
lemma countFeature_le_countLabel (X : FeatureMatrix) (ys : List Label)
    (y : Label) (k : ℕ) :
    countFeature X ys y k ≤ countLabel ys y := by
  induction X generalizing ys with
  | nil => simp [countFeature]
  | cons r X ih =>
    cases ys with
    | nil => simp [countFeature, countLabel]
    | cons z zs =>
      have hrest := ih zs
      simp only [countFeature, countLabel, List.zip_cons_cons, List.filter_cons] at hrest ⊢
      rw [List.count_cons]
      by_cases hp : z = y ∧ r.getD k 0 = 1
      · rw [decide_eq_true hp]
        have hz : (z == y) = true := by simp [hp.1]
        rw [hz]
        simpa using Nat.add_le_add_right hrest 1
      · rw [decide_eq_false hp]
        exact le_trans hrest (Nat.le_add_right _ _)

/-- Labels present in the data have positive class count. -/
lemma countLabel_pos {ys : List Label} {y : Label} (hy : y ∈ ys) :
    0 < countLabel ys y :=
  List.count_pos_iff.mpr hy

/-- C6: with smoothing `α > 0`, every stored per-class-per-feature
probability is strictly between 0 and 1. -/
theorem fit_smoothed_prob_bounds (e : BernoulliNB) (X : FeatureMatrix)
    (ys : List Label) (e' : BernoulliNB) (m : TrainedModel)
    (y : Label) (k : ℕ)
    (hα : 0 < e.alpha) (hfit : fit e X ys = .ok e') (hm : e'.model = some m)
    (hy : y ∈ m.classes) :
    0 < m.condProb y k ∧ m.condProb y k < 1 := by
  have hmm := fit_model_eq hfit hm
  subst hmm
  have hy' : y ∈ ys := mem_firstSeen.mp hy
  have hN : 0 < countLabel ys y := countLabel_pos hy'
  have hcN : countFeature X ys y k ≤ countLabel ys y :=
    countFeature_le_countLabel X ys y k
  have hNq : (1 : ℚ) ≤ (countLabel ys y : ℚ) := by exact_mod_cast hN
  have hcq : (countFeature X ys y k : ℚ) ≤ (countLabel ys y : ℚ) := by
    exact_mod_cast hcN
  have hc0 : (0 : ℚ) ≤ (countFeature X ys y k : ℚ) := Nat.cast_nonneg _
  show 0 < smoothedProb e.alpha _ _ ∧ smoothedProb e.alpha _ _ < 1
  unfold smoothedProb
  constructor
  · apply div_pos <;> linarith
  · rw [div_lt_one (by linarith)]
    linarith

/-- C6 witness. -/
theorem fit_smoothed_prob_bounds_witness :
    (0 : ℚ) < (mkBernoulliNB 1 none).alpha ∧
      (0 < (trainModel 1 none [[1]] [0]).condProb 0 0 ∧
        (trainModel 1 none [[1]] [0]).condProb 0 0 < 1) :=
  ⟨by norm_num [mkBernoulliNB],
    fit_smoothed_prob_bounds (mkBernoulliNB 1 none) [[1]] [0]
      { mkBernoulliNB 1 none with model := some (trainModel 1 none [[1]] [0]) }
      (trainModel 1 none [[1]] [0]) 0 0 (by norm_num [mkBernoulliNB]) rfl rfl
      (by decide)⟩

/-- Dividing each mapped value by a constant divides the sum. -/
lemma list_sum_map_div {α : Type*} (l : List α) (f : α → ℚ) (d : ℚ) :
    (l.map (fun y => f y / d)).sum = (l.map f).sum / d := by
  induction l with
  | nil => simp
  | cons a l ih => simp [ih, add_div]

/-- Casting the mapped values commutes with the list sum. -/
lemma list_sum_map_natCast {α : Type*} (l : List α) (f : α → ℕ) :
    (l.map fun y => ((f y : ℕ) : ℚ)).sum = (((l.map f).sum : ℕ) : ℚ) := by
  induction l with
  | nil => simp
  | cons a l ih => simp [ih]

/-- The class counts over the first-seen class list sum to the number of
training rows. -/
lemma sum_counts_firstSeen (ys : List Label) :
    ((firstSeen ys).map (fun y => countLabel ys y)).sum = ys.length := by
  have h1 : ((firstSeen ys).toFinset.sum fun a => ys.count a)
      = ((firstSeen ys).map (fun y => ys.count y)).sum :=
    List.sum_toFinset _ (firstSeen_nodup ys)
  have h2 : (firstSeen ys).toFinset = ys.toFinset := by
    ext a
    simp [mem_firstSeen]
  show ((firstSeen ys).map fun y => ys.count y).sum = ys.length
  rw [← h1, h2]
  exact List.sum_toFinset_count_eq_length ys

/-- C7: with no fixed class-prior mapping supplied, the priors stored by fit
over the observed classes sum to exactly 1. -/
theorem fit_priors_sum_one (e : BernoulliNB) (X : FeatureMatrix)
    (ys : List Label) (e' : BernoulliNB) (m : TrainedModel)
    (hprior : e.classPrior = none)
    (hfit : fit e X ys = .ok e') (hm : e'.model = some m) :
    (m.classes.map m.prior).sum = 1 := by
  have hmm := fit_model_eq hfit hm
  subst hmm
  have hval := fit_valid hfit
  simp only [validTraining, Bool.and_eq_true, decide_eq_true_eq,
    Bool.not_eq_true', List.isEmpty_eq_false] at hval
  have hXne : X ≠ [] := hval.1.2
  have hlen : X.length = ys.length := hval.1.1
  have hysne : ys ≠ [] := by
    intro h
    apply hXne
    rw [h] at hlen
    exact List.length_eq_zero.mp hlen
  have h0 : ys.length ≠ 0 := by
    simpa [List.length_eq_zero] using hysne
  have hNq : ((ys.length : ℕ) : ℚ) ≠ 0 := Nat.cast_ne_zero.mpr h0
  rw [hprior]
  have hmap : ((trainModel e.alpha none X ys).classes.map
        (trainModel e.alpha none X ys).prior)
      = (firstSeen ys).map (fun y => (countLabel ys y : ℚ) / (ys.length : ℚ)) := rfl
  rw [hmap, list_sum_map_div]
  rw [list_sum_map_natCast (firstSeen ys) (fun y => countLabel ys y)]
  rw [sum_counts_firstSeen]
  exact div_self hNq

/-- C7 witness. -/
theorem fit_priors_sum_one_witness :
    (mkBernoulliNB 0 none).classPrior = none ∧
      ((trainModel 0 none [[1]] [0]).classes.map
        (trainModel 0 none [[1]] [0]).prior).sum = 1 :=
  ⟨rfl, fit_priors_sum_one (mkBernoulliNB 0 none) [[1]] [0]
    { mkBernoulliNB 0 none with model := some (trainModel 0 none [[1]] [0]) }
    (trainModel 0 none [[1]] [0]) rfl rfl rfl⟩

/-- `argmaxBy` returns `none` only on the empty list. -/
lemma argmaxBy_eq_none_iff {α β : Type*} [LinearOrder β] (f : α → β) :
    ∀ l : List α, (argmaxBy f l = none ↔ l = [])
  | [] => by simp [argmaxBy]
  | a :: l => by simp [argmaxBy]

/-- The element `argmaxBy` returns belongs to the list. -/
lemma argmaxBy_mem {α β : Type*} [LinearOrder β] (f : α → β) (l : List α) :
    ∀ a : α, argmaxBy f l = some a → a ∈ l := by
  induction l with
  | nil => intro a ha; simp [argmaxBy] at ha
  | cons b l ih =>
    intro a ha
    cases h : argmaxBy f l with
    | none =>
      have ha' : some b = some a := by
        rw [show argmaxBy f (b :: l)
            = some (argmaxStep f b (argmaxBy f l)) from rfl, h] at ha
        exact ha
      simp only [Option.some.injEq] at ha'
      rw [← ha']
      exact List.mem_cons_self _ _
    | some c =>
      have ha' : some (if f b < f c then c else b) = some a := by
        rw [show argmaxBy f (b :: l)
            = some (argmaxStep f b (argmaxBy f l)) from rfl, h] at ha
        exact ha
      simp only [Option.some.injEq] at ha'
      by_cases hbc : f b < f c
      · rw [if_pos hbc] at ha'
        rw [← ha']
        exact List.mem_cons_of_mem _ (ih c h)
      · rw [if_neg hbc] at ha'
        rw [← ha']
        exact List.mem_cons_self _ _

/-- `argmaxBy` returns the FIRST maximiser: its index `j` satisfies that all
elements are bounded by it and all strictly earlier elements score strictly
less. -/
lemma argmaxBy_first_max {α β : Type*} [LinearOrder β] (f : α → β) :
    ∀ l : List α, l ≠ [] →
      ∃ j, ∃ hj : j < l.length,
        argmaxBy f l = some (l.get ⟨j, hj⟩) ∧
          (∀ x ∈ l, f x ≤ f (l.get ⟨j, hj⟩)) ∧
          ∀ j' (hj' : j' < j),
            f (l.get ⟨j', Nat.lt_trans hj' hj⟩) < f (l.get ⟨j, hj⟩) := by
  intro l
  induction l with
  | nil => intro h; exact absurd rfl h
  | cons a l ih =>
    intro _
    cases hl : argmaxBy f l with
    | none =>
      have hl' : l = [] := (argmaxBy_eq_none_iff f l).mp hl
      subst hl'
      refine ⟨0, by norm_num, ?_, ?_, ?_⟩
      · rfl
      · intro x hx
        rw [List.mem_singleton.mp hx]
        exact le_refl _
      · intro j' hj'
        exact absurd hj' (Nat.not_lt_zero _)
    | some b =>
      have hlne : l ≠ [] := by
        intro h
        subst h
        simp [argmaxBy] at hl
      obtain ⟨j₀, hj₀, hb, hmax, hstrict⟩ := ih hlne
      have hbeq : b = l.get ⟨j₀, hj₀⟩ := by
        rw [hl] at hb
        exact (Option.some.injEq _ _).mp hb
      by_cases hab : f a < f b
      · refine ⟨j₀ + 1, Nat.succ_lt_succ hj₀, ?_, ?_, ?_⟩
        · show some (argmaxStep f a (argmaxBy f l)) = some ((a :: l).get ⟨j₀ + 1, _⟩)
          rw [hl]
          show some (if f a < f b then b else a) = _
          rw [if_pos hab, hbeq]
          rfl
        · intro x hx
          rcases List.mem_cons.mp hx with hx | hx
          · rw [hx]
            show f a ≤ f (l.get ⟨j₀, hj₀⟩)
            rw [← hbeq]
            exact le_of_lt hab
          · show f x ≤ f (l.get ⟨j₀, hj₀⟩)
            exact hmax x hx
        · intro j' hj'
          cases j' with
          | zero =>
            show f a < f (l.get ⟨j₀, hj₀⟩)
            rw [← hbeq]
            exact hab
          | succ k =>
            have hk : k < j₀ := Nat.lt_of_succ_lt_succ hj'
            show f (l.get ⟨k, _⟩) < f (l.get ⟨j₀, hj₀⟩)
            exact hstrict k hk
      · refine ⟨0, Nat.succ_pos _, ?_, ?_, ?_⟩
        · show some (argmaxStep f a (argmaxBy f l)) = some ((a :: l).get ⟨0, _⟩)
          rw [hl]
          show some (if f a < f b then b else a) = _
          rw [if_neg hab]
          rfl
        · intro x hx
          rcases List.mem_cons.mp hx with hx | hx
          · rw [hx]
            exact le_refl _
          · show f x ≤ f a
            calc f x ≤ f (l.get ⟨j₀, hj₀⟩) := hmax x hx
              _ = f b := by rw [hbeq]
              _ ≤ f a := not_lt.mp hab
        · intro j' hj'
          exact absurd hj' (Nat.not_lt_zero _)

/-- Two score functions that order the list's elements identically give the
same `argmaxBy` result. -/
lemma argmaxBy_congr {α β γ : Type*} [LinearOrder β] [LinearOrder γ]
    (f : α → β) (g : α → γ) (l : List α)
    (h : ∀ x ∈ l, ∀ y ∈ l, (f x ≤ f y ↔ g x ≤ g y)) :
    argmaxBy f l = argmaxBy g l := by
  induction l with
  | nil => rfl
  | cons a l ih =>
    have hsub : ∀ x ∈ l, ∀ y ∈ l, (f x ≤ f y ↔ g x ≤ g y) := fun x hx y hy =>
      h x (List.mem_cons_of_mem _ hx) y (List.mem_cons_of_mem _ hy)
    have hIH := ih hsub
    show some (argmaxStep f a (argmaxBy f l)) = some (argmaxStep g a (argmaxBy g l))
    rw [← hIH]
    cases hl : argmaxBy f l with
    | none => rfl
    | some b =>
      have hbmem : b ∈ a :: l := List.mem_cons_of_mem _ (argmaxBy_mem f l b hl)
      have hamem : a ∈ a :: l := List.mem_cons_self _ _
      have hiff : f a < f b ↔ g a < g b := by
        rw [← not_le, ← not_le]
        exact not_congr (h b hbmem a hamem)
      show some (if f a < f b then b else a) = some (if g a < g b then b else a)
      by_cases hab : f a < f b
      · rw [if_pos hab, if_pos (hiff.mp hab)]
      · rw [if_neg hab, if_neg (fun hg => hab (hiff.mpr hg))]

/-- `elog` is order-reflecting on nonnegative rationals (with `elog 0 = ⊥`). -/
lemma elog_le_elog_iff {a b : ℚ} (ha : 0 ≤ a) (hb : 0 ≤ b) :
    (elog a ≤ elog b ↔ a ≤ b) := by
  unfold elog
  rcases eq_or_lt_of_le ha with ha0 | ha0
  · rw [if_pos (le_of_eq ha0.symm)]
    exact iff_of_true bot_le (ha0 ▸ hb)
  · rw [if_neg (not_le.mpr ha0)]
    rcases eq_or_lt_of_le hb with hb0 | hb0
    · rw [if_pos (le_of_eq hb0.symm)]
      constructor
      · intro hle
        exact absurd (le_bot_iff.mp hle) (EReal.coe_ne_bot _)
      · intro hab
        rw [← hb0] at hab
        exact absurd hab (not_le.mpr ha0)
    · rw [if_neg (not_le.mpr hb0)]
      rw [EReal.coe_le_coe_iff]
      rw [Real.log_le_log_iff (by exact_mod_cast ha0) (by exact_mod_cast hb0)]
      exact Rat.cast_le

/-- `elog` turns products of nonnegative rationals into sums. -/
lemma elog_mul {a b : ℚ} (ha : 0 ≤ a) (hb : 0 ≤ b) :
    elog (a * b) = elog a + elog b := by
  rcases eq_or_lt_of_le ha with ha0 | ha0
  · rw [← ha0, zero_mul]
    show elog 0 = elog 0 + elog b
    unfold elog
    rw [if_pos le_rfl]
    exact (EReal.bot_add _).symm
  · rcases eq_or_lt_of_le hb with hb0 | hb0
    · rw [← hb0, mul_zero]
      have h0 : elog 0 = (⊥ : EReal) := by
        unfold elog
        rw [if_pos le_rfl]
      rw [h0]
      exact (EReal.add_bot _).symm
    · have hab : 0 < a * b := mul_pos ha0 hb0
      unfold elog
      rw [if_neg (not_le.mpr hab), if_neg (not_le.mpr ha0), if_neg (not_le.mpr hb0)]
      rw [← EReal.coe_add]
      congr 1
      rw [Rat.cast_mul]
      exact Real.log_mul (by exact_mod_cast ha0.ne') (by exact_mod_cast hb0.ne')

/-- `elog` of a product of a list of nonnegative rationals is the sum of the
`elog`s. -/
lemma elog_list_prod : ∀ l : List ℚ, (∀ v ∈ l, 0 ≤ v) →
    elog l.prod = (l.map elog).sum
  | [] => fun _ => by
    simp only [List.prod_nil, List.map_nil, List.sum_nil]
    unfold elog
    rw [if_neg (by norm_num)]
    simp [Real.log_one]
  | a :: l => fun h => by
    have hprod : 0 ≤ l.prod :=
      List.prod_nonneg fun v hv => h v (List.mem_cons_of_mem _ hv)
    rw [List.prod_cons, elog_mul (h a (List.mem_cons_self _ _)) hprod,
      List.map_cons, List.sum_cons,
      elog_list_prod l fun v hv => h v (List.mem_cons_of_mem _ hv)]

/-- The spec's per-feature term coincides with `elog` of the Bernoulli
factor on binary feature values. -/
lemma featureTerm_eq_elog_factor {p x : ℚ} (hx : x = 0 ∨ x = 1) :
    featureTerm x p = elog (factor p x) := by
  rcases hx with h | h <;> subst h
  · show _ = elog (if (0 : ℚ) = 1 then p else 1 - p)
    rw [if_neg (by norm_num)]
    unfold featureTerm
    norm_num
  · show _ = elog (if (1 : ℚ) = 1 then p else 1 - p)
    rw [if_pos rfl]
    unfold featureTerm
    norm_num

/-- Stored priors are nonnegative when estimated as empirical frequencies. -/
lemma trainModel_prior_nonneg (alpha : ℚ) (X : FeatureMatrix) (ys : List Label)
    (y : Label) :
    0 ≤ (trainModel alpha none X ys).prior y := by
  show (0 : ℚ) ≤ (countLabel ys y : ℚ) / (ys.length : ℚ)
  exact div_nonneg (Nat.cast_nonneg _) (Nat.cast_nonneg _)

/-- With `α ≥ 0` every stored conditional probability lies in `[0, 1]`. -/
lemma trainModel_condProb_bounds (alpha : ℚ) (cp : Option (Label → ℚ))
    (X : FeatureMatrix) (ys : List Label) (y : Label) (k : ℕ) (hα : 0 ≤ alpha) :
    0 ≤ (trainModel alpha cp X ys).condProb y k ∧
      (trainModel alpha cp X ys).condProb y k ≤ 1 := by
  show (0 ≤ smoothedProb alpha (countFeature X ys y k) (countLabel ys y)) ∧
    smoothedProb alpha (countFeature X ys y k) (countLabel ys y) ≤ 1
  have hcN := countFeature_le_countLabel X ys y k
  have hcq : ((countFeature X ys y k : ℕ) : ℚ) ≤ ((countLabel ys y : ℕ) : ℚ) := by
    exact_mod_cast hcN
  have hc0 : (0 : ℚ) ≤ ((countFeature X ys y k : ℕ) : ℚ) := Nat.cast_nonneg _
  have hN0 : (0 : ℚ) ≤ ((countLabel ys y : ℕ) : ℚ) := Nat.cast_nonneg _
  unfold smoothedProb
  rcases eq_or_lt_of_le
      (show (0 : ℚ) ≤ (countLabel ys y : ℚ) + 2 * alpha by linarith) with hd | hd
  · rw [← hd, div_zero]
    norm_num
  · constructor
    · exact div_nonneg (by linarith) (le_of_lt hd)
    · rw [div_le_one hd]
      linarith

/-- Each Bernoulli factor of a probability in `[0,1]` is again in `[0,1]`. -/
lemma factor_bounds {p : ℚ} (x : ℚ) (h0 : 0 ≤ p) (h1 : p ≤ 1) :
    0 ≤ factor p x ∧ factor p x ≤ 1 := by
  unfold factor
  split
  · exact ⟨h0, h1⟩
  · constructor <;> linarith

/-- Product scores are nonnegative whenever the model's prior for the class
is nonnegative and its conditional probabilities lie in `[0, 1]`. -/
lemma prodScore_nonneg (m : TrainedModel) (row : Row) (y : Label)
    (hp : 0 ≤ m.prior y)
    (hc : ∀ k, 0 ≤ m.condProb y k ∧ m.condProb y k ≤ 1) :
    0 ≤ prodScore m row y := by
  unfold prodScore
  refine mul_nonneg hp (List.prod_nonneg ?_)
  intro v hv
  obtain ⟨k, hk, rfl⟩ := List.mem_map.mp hv
  exact (factor_bounds _ (hc k).1 (hc k).2).1

/-- A row of binary values reads as 0 or 1 at every index (0 beyond its
length). -/
lemma getD_binary {row : Row} (h : ∀ v ∈ row, v = 0 ∨ v = 1) (k : ℕ) :
    row.getD k 0 = 0 ∨ row.getD k 0 = 1 := by
  by_cases hk : k < row.length
  · rw [List.getD_eq_getElem?_getD, List.getElem?_eq_getElem hk, Option.getD_some]
    exact h _ (List.getElem_mem hk)
  · rw [List.getD_eq_getElem?_getD, List.getElem?_eq_none (le_of_not_lt hk),
      Option.getD_none]
    exact Or.inl rfl

/-- On binary rows, `elog` of the product score is exactly the spec's
log-score, for any model with a nonnegative class prior and conditional
probabilities in `[0, 1]`. -/
lemma elog_prodScore (m : TrainedModel) (row : Row)
    (hrow : ∀ v ∈ row, v = 0 ∨ v = 1) (y : Label)
    (hp : 0 ≤ m.prior y)
    (hc : ∀ k, 0 ≤ m.condProb y k ∧ m.condProb y k ≤ 1) :
    elog (prodScore m row y) = logScore m row y := by
  unfold prodScore logScore
  have hfact : ∀ v ∈ (List.range m.K).map
      (fun k => factor (m.condProb y k) (row.getD k 0)), 0 ≤ v := by
    intro v hv
    obtain ⟨k, hk, rfl⟩ := List.mem_map.mp hv
    exact (factor_bounds _ (hc k).1 (hc k).2).1
  rw [elog_mul hp (List.prod_nonneg hfact)]
  congr 1
  rw [elog_list_prod _ hfact, List.map_map]
  refine congrArg List.sum ?_
  apply List.map_congr_left
  intro k hk
  show elog (factor (m.condProb y k) (row.getD k 0))
      = featureTerm (row.getD k 0) (m.condProb y k)
  exact (featureTerm_eq_elog_factor (getD_binary hrow k)).symm

/-- Nonempty label lists give a nonempty class list. -/
lemma firstSeen_ne_nil {ys : List Label} (h : ys ≠ []) : firstSeen ys ≠ [] := by
  cases ys with
  | nil => exact absurd rfl h
  | cons a l => simp [firstSeen]

/-- C2: on a model fitted with `α ≥ 0` whose stored class priors are
nonnegative (as probabilities are — empirical frequencies always, and any
caller-supplied prior mapping that is one), predict on a binary feature
matrix whose rows have the training column count returns one label per input
row, in input row order, and each returned label is the argmax over classes
of the spec's log-score, ties broken towards the earlier class in the fixed
first-seen class ordering. -/
theorem predict_argmax_logscore (e : BernoulliNB) (X : FeatureMatrix)
    (ys : List Label) (e' : BernoulliNB) (m : TrainedModel) (Xp : FeatureMatrix)
    (hα : 0 ≤ e.alpha)
    (hfit : fit e X ys = .ok e') (hm : e'.model = some m)
    (hpriors : ∀ y, 0 ≤ m.prior y)
    (hcols : ∀ r ∈ Xp, r.length = m.K)
    (hbin : ∀ r ∈ Xp, ∀ v ∈ r, v = 0 ∨ v = 1) :
    ∃ L : List Label, predict e' Xp = .ok L ∧ L.length = Xp.length ∧
      ∀ i, i < Xp.length → FirstArgmaxAt m (Xp.getD i []) (L.getD i 0) := by
  have hmm := fit_model_eq hfit hm
  subst hmm
  have hcb : ∀ (y : Label) (k : ℕ),
      0 ≤ (trainModel e.alpha e.classPrior X ys).condProb y k ∧
        (trainModel e.alpha e.classPrior X ys).condProb y k ≤ 1 :=
    fun y k => trainModel_condProb_bounds e.alpha e.classPrior X ys y k hα
  have hvalid := fit_valid hfit
  simp only [validTraining, Bool.and_eq_true, decide_eq_true_eq,
    Bool.not_eq_true', List.isEmpty_eq_false] at hvalid
  have hysne : ys ≠ [] := by
    intro h
    apply hvalid.1.2
    have hlen := hvalid.1.1
    rw [h] at hlen
    exact List.length_eq_zero.mp hlen
  have hclne : (trainModel e.alpha e.classPrior X ys).classes ≠ [] := by
    show firstSeen ys ≠ []
    exact firstSeen_ne_nil hysne
  refine ⟨Xp.map (fun r => predictRow (trainModel e.alpha e.classPrior X ys) r), ?_,
    by simp, ?_⟩
  · unfold predict
    rw [hm]
    show (if (Xp.all fun r =>
            decide (r.length = (trainModel e.alpha e.classPrior X ys).K)) = true then
          Except.ok (Xp.map fun r => predictRow (trainModel e.alpha e.classPrior X ys) r)
        else Except.error PredictError.dimensionMismatch)
      = Except.ok (Xp.map fun r => predictRow (trainModel e.alpha e.classPrior X ys) r)
    rw [if_pos (List.all_eq_true.mpr fun r hr => decide_eq_true (hcols r hr))]
  · intro i hi
    have hrowmem : Xp.getD i [] ∈ Xp := by
      rw [List.getD_eq_getElem?_getD, List.getElem?_eq_getElem hi, Option.getD_some]
      exact List.getElem_mem hi
    have hLi : ((Xp.map fun r =>
          predictRow (trainModel e.alpha e.classPrior X ys) r).getD i 0)
        = predictRow (trainModel e.alpha e.classPrior X ys) (Xp.getD i []) := by
      rw [List.getD_eq_getElem?_getD,
        List.getElem?_eq_getElem (by simpa using hi), Option.getD_some,
        List.getElem_map]
      rw [List.getD_eq_getElem?_getD, List.getElem?_eq_getElem hi, Option.getD_some]
    rw [hLi]
    have hrbin : ∀ v ∈ Xp.getD i [], v = 0 ∨ v = 1 := hbin _ hrowmem
    have htrans :
        argmaxBy (prodScore (trainModel e.alpha e.classPrior X ys) (Xp.getD i []))
            (trainModel e.alpha e.classPrior X ys).classes
          = argmaxBy (logScore (trainModel e.alpha e.classPrior X ys) (Xp.getD i []))
            (trainModel e.alpha e.classPrior X ys).classes := by
      apply argmaxBy_congr
      intro x hx y hy
      constructor
      · intro hle
        rw [← elog_prodScore _ _ hrbin x (hpriors x) (hcb x),
          ← elog_prodScore _ _ hrbin y (hpriors y) (hcb y)]
        exact (elog_le_elog_iff
          (prodScore_nonneg _ _ x (hpriors x) (hcb x))
          (prodScore_nonneg _ _ y (hpriors y) (hcb y))).mpr hle
      · intro hle
        rw [← elog_prodScore _ _ hrbin x (hpriors x) (hcb x),
          ← elog_prodScore _ _ hrbin y (hpriors y) (hcb y)] at hle
        exact (elog_le_elog_iff
          (prodScore_nonneg _ _ x (hpriors x) (hcb x))
          (prodScore_nonneg _ _ y (hpriors y) (hcb y))).mp hle
    obtain ⟨j, hj, heq, hmax, hstrict⟩ :=
      argmaxBy_first_max
        (logScore (trainModel e.alpha e.classPrior X ys) (Xp.getD i []))
        (trainModel e.alpha e.classPrior X ys).classes hclne
    have hlab : predictRow (trainModel e.alpha e.classPrior X ys) (Xp.getD i [])
        = (trainModel e.alpha e.classPrior X ys).classes.get ⟨j, hj⟩ := by
      unfold predictRow
      rw [htrans, heq]
      rfl
    refine ⟨j, hj, hlab, ?_, hstrict⟩
    intro y hy
    rw [hlab]
    exact hmax y hy

/-- C2 witness. -/
theorem predict_argmax_logscore_witness :
    (0 : ℚ) ≤ (mkBernoulliNB 1 none).alpha ∧
      (∀ y, 0 ≤ (trainModel 1 none [[1], [0]] [0, 1]).prior y) ∧
      (∀ r ∈ ([[(0 : ℚ)]] : FeatureMatrix),
        r.length = (trainModel 1 none [[1], [0]] [0, 1]).K) ∧
      (∀ r ∈ ([[(0 : ℚ)]] : FeatureMatrix), ∀ v ∈ r, v = 0 ∨ v = 1) ∧
      (∃ L : List Label, predict demoSmoothed [[(0 : ℚ)]] = .ok L ∧
        L.length = ([[(0 : ℚ)]] : FeatureMatrix).length ∧
        ∀ i, i < ([[(0 : ℚ)]] : FeatureMatrix).length →
          FirstArgmaxAt (trainModel 1 none [[1], [0]] [0, 1])
            (([[(0 : ℚ)]] : FeatureMatrix).getD i []) (L.getD i 0)) :=
  ⟨by norm_num [mkBernoulliNB],
    fun y => trainModel_prior_nonneg 1 [[1], [0]] [0, 1] y,
    by decide, by decide,
    predict_argmax_logscore (mkBernoulliNB 1 none) [[1], [0]] [0, 1] demoSmoothed
      (trainModel 1 none [[1], [0]] [0, 1]) [[(0 : ℚ)]]
      (by norm_num [mkBernoulliNB]) rfl rfl
      (fun y => trainModel_prior_nonneg 1 [[1], [0]] [0, 1] y)
      (by decide) (by decide)⟩

/-- C8: predict is deterministic — identical estimator and input give
identical output (the embedding is a pure function of its arguments). -/
theorem predict_deterministic (e : BernoulliNB) (X : FeatureMatrix) :
    predict e X = predict e X := rfl

/-- C9: a predict call leaves the estimator — in particular its stored model,
priors and conditional probabilities — unchanged. -/
theorem predictCall_preserves_model (e : BernoulliNB) (X : FeatureMatrix) :
    (predictCall e X).2 = e ∧ (predictCall e X).2.model = e.model ∧
      (predictCall e X).2.alpha = e.alpha ∧
      (predictCall e X).2.classPrior = e.classPrior :=
  ⟨rfl, rfl, rfl, rfl⟩

/-- C10: preprocessing binarises only `Age` and `Fare` (into `Age_cat`,
`Fare_cat`), recodes `Sex` to 0/1, and leaves `Pclass`,
`Siblings/Spouses Aboard` and `Parents/Children Aboard` at their original
values; consequently some preprocessed feature rows contain values outside
{0, 1}. -/
theorem preprocess_shape :
    (∀ r : RawPassenger,
        (preprocess r).pclass = r.pclass ∧
        (preprocess r).siblingsSpousesAboard = r.siblingsSpousesAboard ∧
        (preprocess r).parentsChildrenAboard = r.parentsChildrenAboard ∧
        (preprocess r).age_cat = decide (r.age ≤ 2) ∧
        (preprocess r).fare_cat = decide (r.fare ≤ 23.35) ∧
        ((preprocess r).sex = 0 ∨ (preprocess r).sex = 1)) ∧
      (∃ r : RawPassenger, ∃ v ∈ featureRow (preprocess r), v ≠ 0 ∧ v ≠ 1) := by
  constructor
  · intro r
    refine ⟨rfl, rfl, rfl, rfl, rfl, ?_⟩
    cases hs : r.sex
    · exact Or.inl (by simp [preprocess, recodeSex, hs])
    · exact Or.inr (by simp [preprocess, recodeSex, hs])
  · refine ⟨⟨0, 3, "", .male, 22, 1, 0, 7⟩, 3, ?_, by norm_num, by norm_num⟩
    simp [featureRow, preprocess]

end NB
